import Mathlib

/-!
Shallow embedding of `airflow/utils/operator_helpers.py`:
`context_to_airflow_vars`, `KeywordParameters.determine` / `determine_kwargs`,
and `ExecutionCallableRunner`.
-/

/-- A Python attribute / keyword value, restricted to the shapes the code
distinguishes: `str`, `datetime` (carried by its ISO-8601 rendering),
`list` (of strings, as joined by the code), `None`, and any other object
(represented by an integer, rendered via `str`). -/
inductive PyVal where
  | str (s : String)
  | dt (iso : String)
  | list (xs : List String)
  | pynone
  | int (n : Int)
deriving DecidableEq

/-- Python truthiness of a `PyVal` (`if _attr:`). -/
def PyVal.truthy : PyVal → Bool
  | .str s => s ≠ ""
  | .dt _ => true
  | .list xs => xs ≠ []
  | .pynone => false
  | .int n => n ≠ 0

/-- Serialization used by the export loop of `context_to_airflow_vars`
(lines 123-131): a `str` is kept, a `datetime` is rendered by `isoformat()`,
a `list` is comma-joined, anything else goes through `str(...)`. -/
def PyVal.render : PyVal → String
  | .str s => s
  | .dt iso => iso
  | .list xs => String.intercalate "," xs
  | .pynone => "None"
  | .int n => toString n

/-- `isinstance(v, str)`. -/
def PyVal.isStr : PyVal → Bool
  | .str _ => true
  | _ => false

/-- A Python object as seen through `getattr`: its truthiness and its
attribute table (`getattr` on a missing name yields the `None` default). -/
structure PyObj where
  truthy : Bool
  attrs : List (String × PyVal)
deriving DecidableEq

/-- `getattr(subject, attr, None)` where `subject` may be `None`/absent. -/
def pygetattr (o : Option PyObj) (a : String) : Option PyVal :=
  match o with
  | none => none
  | some obj => obj.attrs.lookup a

/-- Truthiness of the `subject` operand in `if subject and _attr:`. -/
def subjTruthy : Option PyObj → Bool
  | none => false
  | some o => o.truthy

/-- The task context as consulted by `context_to_airflow_vars`:
`context.get("task")`, `context.get("task_instance")`, `context.get("dag_run")`. -/
structure Context where
  task : Option PyObj
  task_instance : Option PyObj
  dag_run : Option PyObj
deriving DecidableEq

/-- `AIRFLOW_VAR_NAME_FORMAT_MAPPING`: mapping key ↦ (default form, env-var form).
The default form is `"airflow.ctx." ++ name`, the env-var form
`"AIRFLOW_CTX_" ++ NAME`, exactly as in the source dict literal. -/
def AIRFLOW_VAR_NAME_FORMAT_MAPPING : List (String × String × String) :=
  [("AIRFLOW_CONTEXT_DAG_ID", "airflow.ctx.dag_id", "AIRFLOW_CTX_DAG_ID"),
   ("AIRFLOW_CONTEXT_TASK_ID", "airflow.ctx.task_id", "AIRFLOW_CTX_TASK_ID"),
   ("AIRFLOW_CONTEXT_LOGICAL_DATE", "airflow.ctx.logical_date", "AIRFLOW_CTX_LOGICAL_DATE"),
   ("AIRFLOW_CONTEXT_TRY_NUMBER", "airflow.ctx.try_number", "AIRFLOW_CTX_TRY_NUMBER"),
   ("AIRFLOW_CONTEXT_DAG_RUN_ID", "airflow.ctx.dag_run_id", "AIRFLOW_CTX_DAG_RUN_ID"),
   ("AIRFLOW_CONTEXT_DAG_OWNER", "airflow.ctx.dag_owner", "AIRFLOW_CTX_DAG_OWNER"),
   ("AIRFLOW_CONTEXT_DAG_EMAIL", "airflow.ctx.dag_email", "AIRFLOW_CTX_DAG_EMAIL")]

/-- `AIRFLOW_VAR_NAME_FORMAT_MAPPING[mapping_key][name_format]` with
`name_format` selected by `in_env_var_format`. -/
def lookupFormat (mkey : String) (in_env_var_format : Bool) : String :=
  match AIRFLOW_VAR_NAME_FORMAT_MAPPING.lookup mkey with
  | some de => if in_env_var_format then de.2 else de.1
  | none => ""

/-- Python-dict insertion `params[key] = value`: replace in place when the
key exists, otherwise append (insertion order preserved). -/
def dinsert (d : List (String × String)) (k v : String) : List (String × String) :=
  if d.any (fun p => p.1 == k) then
    d.map (fun p => if p.1 == k then (k, v) else p)
  else
    d ++ [(k, v)]

/-- `key in dict` for the string-to-string result dict. -/
def containsKey (d : List (String × String)) (k : String) : Bool :=
  d.any (fun p => p.1 == k)

/-- The `ops` list of `(subject, attr, mapping_key)` triples (lines 94-102). -/
def opsList (ctx : Context) : List (Option PyObj × String × String) :=
  [(ctx.task, "email", "AIRFLOW_CONTEXT_DAG_EMAIL"),
   (ctx.task, "owner", "AIRFLOW_CONTEXT_DAG_OWNER"),
   (ctx.task_instance, "dag_id", "AIRFLOW_CONTEXT_DAG_ID"),
   (ctx.task_instance, "task_id", "AIRFLOW_CONTEXT_TASK_ID"),
   (ctx.task_instance, "logical_date", "AIRFLOW_CONTEXT_LOGICAL_DATE"),
   (ctx.task_instance, "try_number", "AIRFLOW_CONTEXT_TRY_NUMBER"),
   (ctx.dag_run, "run_id", "AIRFLOW_CONTEXT_DAG_RUN_ID")]

/-- Key normalization for an extra context variable (lines 111-116):
in env-var form a key not already starting with `AIRFLOW_CTX_` is upper-cased
and given that marker in front; in default form a key not already starting
with `airflow.ctx.` gets that marker in front. -/
def normalizeExtraKey (in_env_var_format : Bool) (key : String) : String :=
  if in_env_var_format then
    if key.startsWith "AIRFLOW_CTX_" then key else "AIRFLOW_CTX_" ++ key.toUpper
  else
    if key.startsWith "airflow.ctx." then key else "airflow.ctx." ++ key

/-- The loop over `settings.get_airflow_context_vars(context)` (lines 105-117):
type-checks each key and value as `str`, normalizes the key, and inserts it;
raises `TypeError` on the first non-string key or value. -/
def processExtras (in_env_var_format : Bool) :
    List (PyVal × PyVal) → List (String × String) → Except String (List (String × String))
  | [], params => .ok params
  | (k, v) :: rest, params =>
    match k with
    | .str ks =>
      match v with
      | .str vs =>
        processExtras in_env_var_format rest
          (dinsert params (normalizeExtraKey in_env_var_format ks) vs)
      | _ => .error ("value of key <" ++ ks ++ "> must be string")
    | _ => .error "key must be string"

/-- The export loop over `ops` (lines 119-131): for each triple, when the
subject and attribute are both truthy, write the serialized attribute under
the formatted standard key. -/
def processOps (fmt : String → String) :
    List (Option PyObj × String × String) → List (String × String) → List (String × String)
  | [], params => params
  | (subject, attr, mkey) :: rest, params =>
    let params' :=
      match pygetattr subject attr with
      | some v => if subjTruthy subject && v.truthy then dinsert params (fmt mkey) v.render else params
      | none => params
    processOps fmt rest params'

/-- `context_to_airflow_vars(context, in_env_var_format)`.  The extra
variables returned by the external collaborator
`settings.get_airflow_context_vars(context)` are passed in explicitly as
`extras` (the stock Airflow implementation returns `{}`).  `TypeError` is
modelled as `.error`. -/
def context_to_airflow_vars (ctx : Context) (extras : List (PyVal × PyVal))
    (in_env_var_format : Bool) : Except String (List (String × String)) :=
  match processExtras in_env_var_format extras [] with
  | .error e => .error e
  | .ok params => .ok (processOps (fun mkey => lookupFormat mkey in_env_var_format) (opsList ctx) params)

/-- The seven documented standard keys, per format. -/
def standardKeys (in_env_var_format : Bool) : List String :=
  if in_env_var_format then
    ["AIRFLOW_CTX_DAG_ID", "AIRFLOW_CTX_TASK_ID", "AIRFLOW_CTX_LOGICAL_DATE",
     "AIRFLOW_CTX_TRY_NUMBER", "AIRFLOW_CTX_DAG_RUN_ID", "AIRFLOW_CTX_DAG_OWNER",
     "AIRFLOW_CTX_DAG_EMAIL"]
  else
    ["airflow.ctx.dag_id", "airflow.ctx.task_id", "airflow.ctx.logical_date",
     "airflow.ctx.try_number", "airflow.ctx.dag_run_id", "airflow.ctx.dag_owner",
     "airflow.ctx.dag_email"]

/-- The concrete context of the spec's example: a task with `owner="alice"`,
a task instance with `dag_id="d1"` and `try_number=2`, no other exported
attributes, no dag_run. -/
def exampleCtx : Context :=
  { task := some { truthy := true, attrs := [("owner", .str "alice")] },
    task_instance := some { truthy := true, attrs := [("dag_id", .str "d1"), ("try_number", .int 2)] },
    dag_run := none }

/-- The context with no task, task_instance, or dag_run. -/
def emptyCtx : Context := ⟨none, none, none⟩

theorem mem_dinsert {d : List (String × String)} {k0 v0 k v : String}
    (h : (k, v) ∈ dinsert d k0 v0) : (k, v) ∈ d ∨ (k = k0 ∧ v = v0) := by
  unfold dinsert at h
  by_cases hg : d.any (fun p => p.1 == k0)
  · rw [if_pos hg] at h
    rcases List.mem_map.1 h with ⟨p, hp, hpe⟩
    by_cases hpk : p.1 == k0
    · rw [if_pos hpk] at hpe
      exact Or.inr ⟨congrArg Prod.fst hpe.symm, congrArg Prod.snd hpe.symm⟩
    · rw [if_neg hpk] at hpe
      exact Or.inl (hpe ▸ hp)
  · rw [if_neg hg] at h
    rcases List.mem_append.1 h with h1 | h1
    · exact Or.inl h1
    · have h2 := List.mem_singleton.1 h1
      exact Or.inr ⟨congrArg Prod.fst h2, congrArg Prod.snd h2⟩

theorem containsKey_iff {d : List (String × String)} {k : String} :
    containsKey d k = true ↔ ∃ v, (k, v) ∈ d := by
  unfold containsKey
  simp only [List.any_eq_true, beq_iff_eq]
  constructor
  · rintro ⟨⟨a, b⟩, hp, hk⟩
    subst hk
    exact ⟨b, hp⟩
  · rintro ⟨v, hv⟩
    exact ⟨(k, v), hv, rfl⟩

theorem containsKey_dinsert {d : List (String × String)} {k0 v0 k : String} :
    containsKey (dinsert d k0 v0) k = true ↔ containsKey d k = true ∨ k = k0 := by
  constructor
  · intro h
    rcases containsKey_iff.1 h with ⟨v, hv⟩
    rcases mem_dinsert hv with h1 | ⟨rfl, rfl⟩
    · exact Or.inl (containsKey_iff.2 ⟨v, h1⟩)
    · exact Or.inr rfl
  · intro h
    unfold dinsert
    by_cases hg : d.any (fun p => p.1 == k0)
    · rw [if_pos hg]
      by_cases hk : k = k0
      · subst hk
        rcases List.any_eq_true.1 hg with ⟨p, hp, hpk⟩
        exact containsKey_iff.2 ⟨v0, List.mem_map.2 ⟨p, hp, by rw [if_pos hpk]⟩⟩
      · rcases h with h | h
        · rcases containsKey_iff.1 h with ⟨v, hv⟩
          refine containsKey_iff.2 ⟨v, List.mem_map.2 ⟨(k, v), hv, ?_⟩⟩
          rw [if_neg (by simp only [beq_iff_eq]; exact hk)]
        · exact absurd h hk
    · rw [if_neg hg]
      rcases h with h | rfl
      · rcases containsKey_iff.1 h with ⟨v, hv⟩
        exact containsKey_iff.2 ⟨v, List.mem_append.2 (Or.inl hv)⟩
      · exact containsKey_iff.2 ⟨v0, List.mem_append.2 (Or.inr (List.mem_singleton.2 rfl))⟩

theorem processOps_cons_none {fmt : String → String} {o : Option PyObj} {a m : String}
    {rest : List (Option PyObj × String × String)} {params : List (String × String)}
    (hga : pygetattr o a = none) :
    processOps fmt ((o, a, m) :: rest) params = processOps fmt rest params := by
  simp only [processOps, hga]

theorem processOps_cons_some {fmt : String → String} {o : Option PyObj} {a m : String}
    {rest : List (Option PyObj × String × String)} {params : List (String × String)}
    {val : PyVal} (hga : pygetattr o a = some val) :
    processOps fmt ((o, a, m) :: rest) params =
      processOps fmt rest
        (if subjTruthy o && val.truthy then dinsert params (fmt m) val.render else params) := by
  simp only [processOps, hga]

theorem processOps_mem {fmt : String → String} :
    ∀ (l : List (Option PyObj × String × String)) (params : List (String × String))
      (k v : String), (k, v) ∈ processOps fmt l params →
      (k, v) ∈ params ∨
        ∃ o a m val, (o, a, m) ∈ l ∧ pygetattr o a = some val ∧ subjTruthy o = true ∧
          val.truthy = true ∧ k = fmt m ∧ v = val.render := by
  intro l
  induction l with
  | nil => exact fun params k v h => Or.inl h
  | cons hd tl ih =>
    intro params k v h
    obtain ⟨o, a, m⟩ := hd
    rcases hga : pygetattr o a with _ | val
    · rw [processOps_cons_none hga] at h
      rcases ih params k v h with h1 | ⟨o', a', m', val', hm, h2⟩
      · exact Or.inl h1
      · exact Or.inr ⟨o', a', m', val', List.mem_cons_of_mem _ hm, h2⟩
    · rw [processOps_cons_some hga] at h
      by_cases hc : subjTruthy o && val.truthy
      · rw [if_pos hc] at h
        rcases ih _ k v h with h1 | ⟨o', a', m', val', hm, h2⟩
        · rcases mem_dinsert h1 with h2 | ⟨rfl, rfl⟩
          · exact Or.inl h2
          · rw [Bool.and_eq_true] at hc
            exact Or.inr ⟨o, a, m, val, List.mem_cons_self _ _, hga, hc.1, hc.2, rfl, rfl⟩
        · exact Or.inr ⟨o', a', m', val', List.mem_cons_of_mem _ hm, h2⟩
      · rw [if_neg hc] at h
        rcases ih params k v h with h1 | ⟨o', a', m', val', hm, h2⟩
        · exact Or.inl h1
        · exact Or.inr ⟨o', a', m', val', List.mem_cons_of_mem _ hm, h2⟩

theorem processOps_containsKey_mono {fmt : String → String} :
    ∀ (l : List (Option PyObj × String × String)) (params : List (String × String))
      (k : String), containsKey params k = true →
      containsKey (processOps fmt l params) k = true := by
  intro l
  induction l with
  | nil => exact fun params k h => h
  | cons hd tl ih =>
    intro params k h
    obtain ⟨o, a, m⟩ := hd
    rcases hga : pygetattr o a with _ | val
    · rw [processOps_cons_none hga]
      exact ih params k h
    · rw [processOps_cons_some hga]
      by_cases hc : subjTruthy o && val.truthy
      · rw [if_pos hc]
        exact ih _ k (containsKey_dinsert.2 (Or.inl h))
      · rw [if_neg hc]
        exact ih params k h

theorem processOps_containsKey_of_op {fmt : String → String} {o : Option PyObj}
    {a m : String} {val : PyVal} (hga : pygetattr o a = some val)
    (hs : subjTruthy o = true) (ht : val.truthy = true) :
    ∀ (l : List (Option PyObj × String × String)) (params : List (String × String)),
      (o, a, m) ∈ l → containsKey (processOps fmt l params) (fmt m) = true := by
  intro l
  induction l with
  | nil => exact fun params hm => absurd hm (List.not_mem_nil _)
  | cons hd tl ih =>
    intro params hm
    obtain ⟨o', a', m'⟩ := hd
    rcases List.mem_cons.1 hm with heq | htl
    · injection heq with h1 h23
      injection h23 with h2 h3
      subst h1; subst h2; subst h3
      have hc : (subjTruthy o && val.truthy) = true := by
        rw [Bool.and_eq_true]; exact ⟨hs, ht⟩
      rw [processOps_cons_some hga, if_pos hc]
      exact processOps_containsKey_mono tl _ _ (containsKey_dinsert.2 (Or.inr rfl))
    · rcases hga' : pygetattr o' a' with _ | val'
      · rw [processOps_cons_none hga']
        exact ih params htl
      · rw [processOps_cons_some hga']
        by_cases hc : subjTruthy o' && val'.truthy
        · rw [if_pos hc]
          exact ih _ htl
        · rw [if_neg hc]
          exact ih params htl

theorem opsList_key_inj {ctx : Context} {b : Bool} {o o' : Option PyObj} {a a' m m' : String}
    (hm : (o, a, m) ∈ opsList ctx) (hm' : (o', a', m') ∈ opsList ctx)
    (heq : lookupFormat m b = lookupFormat m' b) : o = o' ∧ a = a' := by
  simp only [opsList, List.mem_cons, List.not_mem_nil, or_false, Prod.mk.injEq] at hm hm'
  rcases hm with h1 | h1 | h1 | h1 | h1 | h1 | h1 <;>
    rcases hm' with h2 | h2 | h2 | h2 | h2 | h2 | h2 <;>
    obtain ⟨rfl, rfl, rfl⟩ := h1 <;>
    obtain ⟨rfl, rfl, rfl⟩ := h2 <;>
    first
      | exact ⟨rfl, rfl⟩
      | (cases b <;> exact absurd heq (by decide))

/-- C1: `context_to_airflow_vars` emits the documented key scheme: with no
extra context variables, every exported key is one of the seven documented
standard keys (dotted `airflow.ctx.*` form by default, upper-snake
`AIRFLOW_CTX_*` form when `in_env_var_format` is true); and on the spec's
example context (task owner `"alice"`, task-instance dag_id `"d1"`,
try_number `2`) the default-form result is exactly
`{"airflow.ctx.dag_owner": "alice", "airflow.ctx.dag_id": "d1",
"airflow.ctx.try_number": "2"}`, with the corresponding `AIRFLOW_CTX_*` keys
in env-var form. -/
theorem C1_context_export_key_scheme :
    (∀ (ctx : Context) (b : Bool) (ps : List (String × String)) (k v : String),
        context_to_airflow_vars ctx [] b = .ok ps → (k, v) ∈ ps → k ∈ standardKeys b) ∧
    context_to_airflow_vars exampleCtx [] false =
      .ok [("airflow.ctx.dag_owner", "alice"), ("airflow.ctx.dag_id", "d1"),
           ("airflow.ctx.try_number", "2")] ∧
    context_to_airflow_vars exampleCtx [] true =
      .ok [("AIRFLOW_CTX_DAG_OWNER", "alice"), ("AIRFLOW_CTX_DAG_ID", "d1"),
           ("AIRFLOW_CTX_TRY_NUMBER", "2")] := by
  refine ⟨?_, rfl, rfl⟩
  intro ctx b ps k v hok hmem
  have hunf : context_to_airflow_vars ctx [] b =
      .ok (processOps (fun mkey => lookupFormat mkey b) (opsList ctx) []) := rfl
  rw [hunf] at hok
  injection hok with hok
  subst hok
  rcases processOps_mem _ _ _ _ hmem with h1 | ⟨o, a, m, val, hm, _, _, _, hk, _⟩
  · cases h1
  · subst hk
    simp only [opsList, List.mem_cons, List.not_mem_nil, or_false, Prod.mk.injEq] at hm
    rcases hm with ⟨_, _, rfl⟩|⟨_, _, rfl⟩|⟨_, _, rfl⟩|⟨_, _, rfl⟩|⟨_, _, rfl⟩|⟨_, _, rfl⟩|⟨_, _, rfl⟩ <;>
      cases b <;> decide

/-- Witness for C1, applying it on the spec's example context. -/
theorem C1_context_export_key_scheme_witness :
    "airflow.ctx.dag_owner" ∈ standardKeys false :=
  C1_context_export_key_scheme.1 exampleCtx false
    [("airflow.ctx.dag_owner", "alice"), ("airflow.ctx.dag_id", "d1"),
     ("airflow.ctx.try_number", "2")]
    "airflow.ctx.dag_owner" "alice" rfl (by decide)

/-- C2: every value exported for a standard key is the serialization
`PyVal.render` of the corresponding attribute, and `render` realizes the
documented scheme: a string is kept unchanged, a datetime is rendered in its
ISO-8601 form, a list is comma-joined, any other value goes through its
canonical string form. -/
theorem C2_value_serialization :
    (∀ (ctx : Context) (b : Bool) (ps : List (String × String)) (k v : String),
        context_to_airflow_vars ctx [] b = .ok ps → (k, v) ∈ ps →
        ∃ o a m val, (o, a, m) ∈ opsList ctx ∧ pygetattr o a = some val ∧
          v = PyVal.render val) ∧
    (∀ s, PyVal.render (.str s) = s) ∧
    (∀ iso, PyVal.render (.dt iso) = iso) ∧
    (∀ xs, PyVal.render (.list xs) = String.intercalate "," xs) ∧
    (∀ n : Int, PyVal.render (.int n) = toString n) := by
  refine ⟨?_, fun s => rfl, fun iso => rfl, fun xs => rfl, fun n => rfl⟩
  intro ctx b ps k v hok hmem
  have hunf : context_to_airflow_vars ctx [] b =
      .ok (processOps (fun mkey => lookupFormat mkey b) (opsList ctx) []) := rfl
  rw [hunf] at hok
  injection hok with hok
  subst hok
  rcases processOps_mem _ _ _ _ hmem with h1 | ⟨o, a, m, val, hm, hga, _, _, _, hv⟩
  · cases h1
  · exact ⟨o, a, m, val, hm, hga, hv⟩

/-- Witness for C2: the exported try_number value "2" is the rendering of an
attribute of the example context. -/
theorem C2_value_serialization_witness :
    ∃ o a m val, (o, a, m) ∈ opsList exampleCtx ∧ pygetattr o a = some val ∧
      "2" = PyVal.render val :=
  C2_value_serialization.1 exampleCtx false
    [("airflow.ctx.dag_owner", "alice"), ("airflow.ctx.dag_id", "d1"),
     ("airflow.ctx.try_number", "2")]
    "airflow.ctx.try_number" "2" rfl (by decide)

/-- C8: with no extra context variables, a standard key appears in the result
of `context_to_airflow_vars` iff its subject (task / task_instance / dag_run)
is present and truthy and the attribute exists on it with a truthy value;
absent, `None`, or falsy attributes are silently omitted. -/
theorem C8_standard_key_presence :
    ∀ (ctx : Context) (b : Bool) (ps : List (String × String)) (o : Option PyObj)
      (a m : String),
      context_to_airflow_vars ctx [] b = .ok ps → (o, a, m) ∈ opsList ctx →
      (containsKey ps (lookupFormat m b) = true ↔
        subjTruthy o = true ∧ ∃ val, pygetattr o a = some val ∧ val.truthy = true) := by
  intro ctx b ps o a m hok hm
  have hunf : context_to_airflow_vars ctx [] b =
      .ok (processOps (fun mkey => lookupFormat mkey b) (opsList ctx) []) := rfl
  rw [hunf] at hok
  injection hok with hok
  subst hok
  constructor
  · intro h
    rcases containsKey_iff.1 h with ⟨v, hv⟩
    rcases processOps_mem _ _ _ _ hv with h1 | ⟨o', a', m', val, hm', hga, hs, ht, hk, _⟩
    · cases h1
    · obtain ⟨ho, ha⟩ := opsList_key_inj hm hm' hk
      subst ho
      subst ha
      exact ⟨hs, val, hga, ht⟩
  · rintro ⟨hs, val, hga, ht⟩
    exact processOps_containsKey_of_op hga hs ht (opsList ctx) [] hm

/-- Witness for C8: on the example context, the dag_owner key is present and
the owner attribute is truthy. -/
theorem C8_standard_key_presence_witness :
    containsKey
        [("airflow.ctx.dag_owner", "alice"), ("airflow.ctx.dag_id", "d1"),
         ("airflow.ctx.try_number", "2")]
        (lookupFormat "AIRFLOW_CONTEXT_DAG_OWNER" false) = true ↔
      subjTruthy exampleCtx.task = true ∧
        ∃ val, pygetattr exampleCtx.task "owner" = some val ∧ val.truthy = true :=
  C8_standard_key_presence exampleCtx false
    [("airflow.ctx.dag_owner", "alice"), ("airflow.ctx.dag_id", "d1"),
     ("airflow.ctx.try_number", "2")]
    exampleCtx.task "owner" "AIRFLOW_CONTEXT_DAG_OWNER" rfl (by decide)

theorem processExtras_ok_of_str (b : Bool) :
    ∀ (extras : List (PyVal × PyVal)) (params : List (String × String)),
      (∀ p ∈ extras, p.1.isStr = true ∧ p.2.isStr = true) →
      ∃ ps, processExtras b extras params = .ok ps := by
  intro extras
  induction extras with
  | nil => exact fun params _ => ⟨params, rfl⟩
  | cons hd tl ih =>
    intro params h
    obtain ⟨k, v⟩ := hd
    have hk : k.isStr = true := (h (k, v) (List.mem_cons_self _ _)).1
    have hv : v.isStr = true := (h (k, v) (List.mem_cons_self _ _)).2
    cases k with
    | str ks =>
      cases v with
      | str vs =>
        simp only [processExtras]
        exact ih _ (fun p hp => h p (List.mem_cons_of_mem _ hp))
      | dt i => exact Bool.noConfusion hv
      | list xs => exact Bool.noConfusion hv
      | pynone => exact Bool.noConfusion hv
      | int n => exact Bool.noConfusion hv
    | dt i => exact Bool.noConfusion hk
    | list xs => exact Bool.noConfusion hk
    | pynone => exact Bool.noConfusion hk
    | int n => exact Bool.noConfusion hk

theorem processExtras_str_of_ok (b : Bool) :
    ∀ (extras : List (PyVal × PyVal)) (params ps : List (String × String)),
      processExtras b extras params = .ok ps →
      ∀ p ∈ extras, p.1.isStr = true ∧ p.2.isStr = true := by
  intro extras
  induction extras with
  | nil => intro params ps _ p hp; cases hp
  | cons hd tl ih =>
    intro params ps hok p hp
    obtain ⟨k, v⟩ := hd
    cases k with
    | str ks =>
      cases v with
      | str vs =>
        simp only [processExtras] at hok
        rcases List.mem_cons.1 hp with rfl | hp'
        · exact ⟨rfl, rfl⟩
        · exact ih _ ps hok p hp'
      | dt i =>
        simp only [processExtras] at hok
        exact Except.noConfusion hok
      | list xs =>
        simp only [processExtras] at hok
        exact Except.noConfusion hok
      | pynone =>
        simp only [processExtras] at hok
        exact Except.noConfusion hok
      | int n =>
        simp only [processExtras] at hok
        exact Except.noConfusion hok
    | dt i =>
      simp only [processExtras] at hok
      exact Except.noConfusion hok
    | list xs =>
      simp only [processExtras] at hok
      exact Except.noConfusion hok
    | pynone =>
      simp only [processExtras] at hok
      exact Except.noConfusion hok
    | int n =>
      simp only [processExtras] at hok
      exact Except.noConfusion hok

theorem processOps_emptyCtx (fmt : String → String) (params : List (String × String)) :
    processOps fmt (opsList emptyCtx) params = params := rfl

theorem ctx_vars_single_extra (b : Bool) (k v : String) :
    context_to_airflow_vars emptyCtx [(.str k, .str v)] b =
      .ok [(normalizeExtraKey b k, v)] := by
  have h1 : processExtras b [(.str k, .str v)] [] = .ok [(normalizeExtraKey b k, v)] := rfl
  simp only [context_to_airflow_vars, h1, processOps_emptyCtx]

set_option maxHeartbeats 1600000 in
/-- C9: extra context variables from `settings.get_airflow_context_vars`: the
call succeeds iff every extra key and value is a string (otherwise TypeError,
before any standard key is computed); an extra key is normalized by
`normalizeExtraKey`, which keeps a key already carrying the selected format's
marker unchanged and otherwise prepends it (upper-casing the key in env-var
form); and a normalized extra key colliding with an exported standard key
ends up with the standard attribute's value. -/
theorem C9_extra_context_vars :
    (∀ (ctx : Context) (b : Bool) (extras : List (PyVal × PyVal)),
        (∃ ps, context_to_airflow_vars ctx extras b = .ok ps) ↔
          ∀ p ∈ extras, p.1.isStr = true ∧ p.2.isStr = true) ∧
    (∀ k v : String, context_to_airflow_vars emptyCtx [(.str k, .str v)] false =
        .ok [(normalizeExtraKey false k, v)]) ∧
    (∀ k v : String, context_to_airflow_vars emptyCtx [(.str k, .str v)] true =
        .ok [(normalizeExtraKey true k, v)]) ∧
    (∀ k : String, k.startsWith "airflow.ctx." = true → normalizeExtraKey false k = k) ∧
    (∀ k : String, k.startsWith "airflow.ctx." = false →
        normalizeExtraKey false k = "airflow.ctx." ++ k) ∧
    (∀ k : String, k.startsWith "AIRFLOW_CTX_" = true → normalizeExtraKey true k = k) ∧
    (∀ k : String, k.startsWith "AIRFLOW_CTX_" = false →
        normalizeExtraKey true k = "AIRFLOW_CTX_" ++ k.toUpper) ∧
    context_to_airflow_vars exampleCtx [(.str "dag_id", .str "overridden")] false =
      .ok [("airflow.ctx.dag_id", "d1"), ("airflow.ctx.dag_owner", "alice"),
           ("airflow.ctx.try_number", "2")] := by
  refine ⟨?_, fun k v => ctx_vars_single_extra false k v,
    fun k v => ctx_vars_single_extra true k v,
    fun k h => ?_, fun k h => ?_, fun k h => ?_, fun k h => ?_, by rfl⟩
  · intro ctx b extras
    constructor
    · rintro ⟨ps, hps⟩ p hp
      rcases hpe : processExtras b extras [] with e | qs
      · simp only [context_to_airflow_vars, hpe] at hps
        exact Except.noConfusion hps
      · exact processExtras_str_of_ok b extras [] qs hpe p hp
    · intro h
      rcases processExtras_ok_of_str b extras [] h with ⟨qs, hqs⟩
      refine ⟨processOps (fun mkey => lookupFormat mkey b) (opsList ctx) qs, ?_⟩
      simp only [context_to_airflow_vars, hqs]
  · simp only [normalizeExtraKey]
    rw [if_neg Bool.false_ne_true, if_pos h]
  · simp only [normalizeExtraKey]
    rw [if_neg Bool.false_ne_true, if_neg (fun hc => Bool.false_ne_true (h ▸ hc))]
  · simp only [normalizeExtraKey]
    rw [if_pos trivial, if_pos h]
  · simp only [normalizeExtraKey]
    rw [if_pos trivial, if_neg (fun hc => Bool.false_ne_true (h ▸ hc))]

/-- Witness for C9: on a concrete non-string extra value the export produces
no result. -/
theorem C9_extra_context_vars_witness :
    (∃ ps, context_to_airflow_vars exampleCtx [(.str "dag_id", .int 3)] false = .ok ps) ↔
      ∀ p ∈ [((PyVal.str "dag_id"), (PyVal.int 3))], p.1.isStr = true ∧ p.2.isStr = true :=
  C9_extra_context_vars.1 exampleCtx false [(.str "dag_id", .int 3)]

/-- The kind of a declared parameter (`inspect.Parameter.kind`). -/
inductive ParamKind where
  | positional_only
  | positional_or_keyword
  | var_positional
  | keyword_only
  | var_keyword
deriving DecidableEq

/-- A Python callable as seen through `inspect.signature(func)`: the ordered
association of declared parameter names to kinds. -/
structure PyFunc where
  params : List (String × ParamKind)
deriving DecidableEq

/-- `name in kwargs`. -/
def kwHasKey (kwargs : List (String × PyVal)) (name : String) : Bool :=
  kwargs.any (fun p => p.1 == name)

/-- `kwargs[name]` for the (unique-keyed) kwargs dict. -/
def kwLookup : List (String × PyVal) → String → Option PyVal
  | [], _ => none
  | (a, v) :: rest, name => if a == name then some v else kwLookup rest name

/-- `key in signature.parameters`. -/
def declaresParam (func : PyFunc) (name : String) : Bool :=
  func.params.any (fun q => q.1 == name)

/-- `any(p.kind == p.VAR_KEYWORD for p in signature.parameters.values())`. -/
def hasWildcardKwargs (func : PyFunc) : Bool :=
  func.params.any (fun q => q.2 == ParamKind.var_keyword)

/-- The conflict loop (lines 168-177): scan the first `len(args)` declared
parameters, skip keyword-only and var-keyword ones, and fail on the first one
whose name is also in kwargs. -/
def conflictScan (kwargs : List (String × PyVal)) :
    List (String × ParamKind) → Option String
  | [] => none
  | (name, kind) :: rest =>
    if kind = ParamKind.keyword_only then conflictScan kwargs rest
    else if kind = ParamKind.var_keyword then conflictScan kwargs rest
    else if kwHasKey kwargs name then some name
    else conflictScan kwargs rest

/-- `KeywordParameters`: wrapper over the kwargs mapping. -/
structure KeywordParameters where
  kwargsMap : List (String × PyVal)
deriving DecidableEq

/-- `KeywordParameters.unpacking()`. -/
def KeywordParameters.unpacking (kp : KeywordParameters) : List (String × PyVal) :=
  kp.kwargsMap

/-- The filtered comprehension
`{key: kwargs[key] for key in signature.parameters if key in kwargs}` (line 184). -/
def filteredKwargs (func : PyFunc) (kwargs : List (String × PyVal)) :
    List (String × PyVal) :=
  func.params.filterMap (fun q => (kwLookup kwargs q.1).map (fun v => (q.1, v)))

/-- `KeywordParameters.determine(func, args, kwargs)` (lines 155-185); `args`
enters only through `len(args)` (`itertools.islice`).  `ValueError` is
modelled as `.error`. -/
def KeywordParameters.determine (func : PyFunc) (numArgs : Nat)
    (kwargs : List (String × PyVal)) : Except String KeywordParameters :=
  match conflictScan kwargs (func.params.take numArgs) with
  | some name =>
    .error ("The key " ++ name ++ " in args is a part of kwargs and therefore reserved.")
  | none =>
    if hasWildcardKwargs func then .ok ⟨kwargs⟩
    else .ok ⟨filteredKwargs func kwargs⟩

/-- `determine_kwargs(func, args, kwargs)` (lines 192-205). -/
def determine_kwargs (func : PyFunc) (numArgs : Nat)
    (kwargs : List (String × PyVal)) : Except String (List (String × PyVal)) :=
  (KeywordParameters.determine func numArgs kwargs).map KeywordParameters.unpacking

theorem determine_kwargs_conflict {func : PyFunc} {numArgs : Nat}
    {kwargs : List (String × PyVal)} {name : String}
    (hcs : conflictScan kwargs (func.params.take numArgs) = some name) :
    determine_kwargs func numArgs kwargs =
      .error ("The key " ++ name ++ " in args is a part of kwargs and therefore reserved.") := by
  simp only [determine_kwargs, KeywordParameters.determine, hcs, Except.map]

theorem determine_kwargs_wild {func : PyFunc} {numArgs : Nat}
    {kwargs : List (String × PyVal)}
    (hcs : conflictScan kwargs (func.params.take numArgs) = none)
    (hw : hasWildcardKwargs func = true) :
    determine_kwargs func numArgs kwargs = .ok kwargs := by
  simp only [determine_kwargs, KeywordParameters.determine, hcs, hw, if_true, Except.map,
    KeywordParameters.unpacking]

theorem determine_kwargs_filter {func : PyFunc} {numArgs : Nat}
    {kwargs : List (String × PyVal)}
    (hcs : conflictScan kwargs (func.params.take numArgs) = none)
    (hw : hasWildcardKwargs func = false) :
    determine_kwargs func numArgs kwargs = .ok (filteredKwargs func kwargs) := by
  simp only [determine_kwargs, KeywordParameters.determine, hcs, hw, Bool.false_eq_true,
    if_false, Except.map, KeywordParameters.unpacking]

theorem kwHasKey_iff {kwargs : List (String × PyVal)} {k : String} :
    kwHasKey kwargs k = true ↔ ∃ v, (k, v) ∈ kwargs := by
  unfold kwHasKey
  simp only [List.any_eq_true, beq_iff_eq]
  constructor
  · rintro ⟨⟨a, b⟩, hp, hk⟩
    subst hk
    exact ⟨b, hp⟩
  · rintro ⟨v, hv⟩
    exact ⟨(k, v), hv, rfl⟩

theorem kwLookup_some_of_hasKey {k : String} :
    ∀ {kwargs : List (String × PyVal)}, kwHasKey kwargs k = true →
      ∃ v, kwLookup kwargs k = some v := by
  intro kwargs
  induction kwargs with
  | nil => intro h; exact absurd h (Bool.noConfusion)
  | cons hd tl ih =>
    intro h
    obtain ⟨a, b⟩ := hd
    cases hak : a == k with
    | true => exact ⟨b, by simp [kwLookup, hak]⟩
    | false =>
      have h' : kwHasKey tl k = true := by
        simpa [kwHasKey, List.any_cons, hak] using h
      rcases ih h' with ⟨v, hv⟩
      refine ⟨v, ?_⟩
      simp [kwLookup, hak, hv]

theorem kwHasKey_of_lookup_some {k : String} {v : PyVal} :
    ∀ {kwargs : List (String × PyVal)}, kwLookup kwargs k = some v →
      kwHasKey kwargs k = true := by
  intro kwargs
  induction kwargs with
  | nil => intro h; exact Option.noConfusion h
  | cons hd tl ih =>
    intro h
    obtain ⟨a, b⟩ := hd
    cases hak : a == k with
    | true => simp [kwHasKey, List.any_cons, hak]
    | false =>
      have h' : kwLookup tl k = some v := by
        simpa [kwLookup, hak] using h
      simp only [kwHasKey, List.any_cons, hak, Bool.false_or]
      exact ih h'

/-- C3: given no positional/named collision (the call succeeds),
`determine_kwargs` returns `kwargs` unchanged when the callable declares a
`**kwargs` wildcard, and otherwise exactly the restriction of `kwargs` to the
declared parameter names: every returned binding is a `kwargs` binding at a
declared name, and every declared-and-supplied name is kept. -/
theorem C3_kwargs_restriction :
    ∀ (func : PyFunc) (numArgs : Nat) (kwargs r : List (String × PyVal)),
      determine_kwargs func numArgs kwargs = .ok r →
      (hasWildcardKwargs func = true → r = kwargs) ∧
      (hasWildcardKwargs func = false →
        (∀ k v, (k, v) ∈ r → declaresParam func k = true ∧ kwLookup kwargs k = some v) ∧
        (∀ k, declaresParam func k = true → kwHasKey kwargs k = true →
          kwHasKey r k = true)) := by
  intro func numArgs kwargs r hok
  rcases hcs : conflictScan kwargs (func.params.take numArgs) with _ | name
  · cases hw : hasWildcardKwargs func with
    | true =>
      rw [determine_kwargs_wild hcs hw] at hok
      injection hok with hok
      subst hok
      exact ⟨fun _ => rfl, fun hw' => Bool.noConfusion hw'⟩
    | false =>
      rw [determine_kwargs_filter hcs hw] at hok
      injection hok with hok
      subst hok
      refine ⟨fun hw' => Bool.noConfusion hw', fun _ => ⟨?_, ?_⟩⟩
      · intro k v hkv
        rcases List.mem_filterMap.1 hkv with ⟨q, hq, hfq⟩
        rcases hql : kwLookup kwargs q.1 with _ | w
        · rw [hql] at hfq
          exact Option.noConfusion hfq
        · rw [hql] at hfq
          injection hfq with hfq
          have h1 : q.1 = k := congrArg Prod.fst hfq
          have h2 : w = v := congrArg Prod.snd hfq
          subst h2
          constructor
          · exact List.any_eq_true.2 ⟨q, hq, by rw [h1]; exact beq_self_eq_true k⟩
          · rw [← h1]; exact hql
      · intro k hd hkk
        rcases List.any_eq_true.1 hd with ⟨q, hq, hqk⟩
        have hqk' : q.1 = k := by simpa using hqk
        rcases kwLookup_some_of_hasKey hkk with ⟨w, hw'⟩
        refine kwHasKey_iff.2 ⟨w, List.mem_filterMap.2 ⟨q, hq, ?_⟩⟩
        rw [hqk', hw']
        rfl
  · rw [determine_kwargs_conflict hcs] at hok
    exact Except.noConfusion hok

/-- Witness for C3 on a concrete callable: `def f(x, *, y, **kw)` with one
positional argument and kwargs `{y: 1, z: 2}` keeps kwargs unchanged. -/
theorem C3_kwargs_restriction_witness :
    (hasWildcardKwargs ⟨[("x", .positional_or_keyword), ("y", .keyword_only),
        ("kw", .var_keyword)]⟩ = true →
      [("y", PyVal.int 1), ("z", PyVal.int 2)] = [("y", PyVal.int 1), ("z", PyVal.int 2)]) ∧
    (hasWildcardKwargs ⟨[("x", .positional_or_keyword), ("y", .keyword_only),
        ("kw", .var_keyword)]⟩ = false →
      (∀ k v, (k, v) ∈ [("y", PyVal.int 1), ("z", PyVal.int 2)] →
        declaresParam ⟨[("x", .positional_or_keyword), ("y", .keyword_only),
          ("kw", .var_keyword)]⟩ k = true ∧
        kwLookup [("y", PyVal.int 1), ("z", PyVal.int 2)] k = some v) ∧
      (∀ k, declaresParam ⟨[("x", .positional_or_keyword), ("y", .keyword_only),
          ("kw", .var_keyword)]⟩ k = true →
        kwHasKey [("y", PyVal.int 1), ("z", PyVal.int 2)] k = true →
        kwHasKey [("y", PyVal.int 1), ("z", PyVal.int 2)] k = true)) :=
  C3_kwargs_restriction
    ⟨[("x", .positional_or_keyword), ("y", .keyword_only), ("kw", .var_keyword)]⟩ 1
    [("y", PyVal.int 1), ("z", PyVal.int 2)] [("y", PyVal.int 1), ("z", PyVal.int 2)]
    (by rfl)

theorem conflictScan_some_iff {kwargs : List (String × PyVal)} :
    ∀ l : List (String × ParamKind),
      (∃ name, conflictScan kwargs l = some name) ↔
        ∃ name kind, (name, kind) ∈ l ∧ kind ≠ ParamKind.keyword_only ∧
          kind ≠ ParamKind.var_keyword ∧ kwHasKey kwargs name = true := by
  intro l
  induction l with
  | nil =>
    constructor
    · rintro ⟨name, h⟩
      exact Option.noConfusion h
    · rintro ⟨name, kind, hm, _⟩
      exact absurd hm (List.not_mem_nil _)
  | cons hd tl ih =>
    obtain ⟨name0, kind0⟩ := hd
    simp only [conflictScan]
    by_cases h1 : kind0 = ParamKind.keyword_only
    · rw [if_pos h1]
      constructor
      · intro h
        rcases ih.1 h with ⟨name, kind, hm, hk1, hk2, hkw⟩
        exact ⟨name, kind, List.mem_cons_of_mem _ hm, hk1, hk2, hkw⟩
      · rintro ⟨name, kind, hm, hk1, hk2, hkw⟩
        rcases List.mem_cons.1 hm with heq | htl
        · injection heq with e1 e2
          exact absurd (e2.trans h1) hk1
        · exact ih.2 ⟨name, kind, htl, hk1, hk2, hkw⟩
    · rw [if_neg h1]
      by_cases h2 : kind0 = ParamKind.var_keyword
      · rw [if_pos h2]
        constructor
        · intro h
          rcases ih.1 h with ⟨name, kind, hm, hk1, hk2, hkw⟩
          exact ⟨name, kind, List.mem_cons_of_mem _ hm, hk1, hk2, hkw⟩
        · rintro ⟨name, kind, hm, hk1, hk2, hkw⟩
          rcases List.mem_cons.1 hm with heq | htl
          · injection heq with e1 e2
            exact absurd (e2.trans h2) hk2
          · exact ih.2 ⟨name, kind, htl, hk1, hk2, hkw⟩
      · rw [if_neg h2]
        by_cases h3 : kwHasKey kwargs name0
        · rw [if_pos h3]
          constructor
          · intro _
            exact ⟨name0, kind0, List.mem_cons_self _ _, h1, h2, h3⟩
          · intro _
            exact ⟨name0, rfl⟩
        · rw [if_neg h3]
          constructor
          · intro h
            rcases ih.1 h with ⟨name, kind, hm, hk1, hk2, hkw⟩
            exact ⟨name, kind, List.mem_cons_of_mem _ hm, hk1, hk2, hkw⟩
          · rintro ⟨name, kind, hm, hk1, hk2, hkw⟩
            rcases List.mem_cons.1 hm with heq | htl
            · injection heq with e1 e2
              subst e1
              exact absurd hkw h3
            · exact ih.2 ⟨name, kind, htl, hk1, hk2, hkw⟩

/-- C4: `KeywordParameters.determine` (hence `determine_kwargs`) raises an
error iff some parameter among the first `len(args)` declared parameters that
is neither keyword-only nor a `**kwargs` wildcard has its name also present
in `kwargs`; in that case no filtered result is produced (the result is an
error), and otherwise no error is raised. -/
theorem C4_collision_error_iff :
    ∀ (func : PyFunc) (numArgs : Nat) (kwargs : List (String × PyVal)),
      (∃ e, determine_kwargs func numArgs kwargs = .error e) ↔
        ∃ name kind, (name, kind) ∈ func.params.take numArgs ∧
          kind ≠ ParamKind.keyword_only ∧ kind ≠ ParamKind.var_keyword ∧
          kwHasKey kwargs name = true := by
  intro func numArgs kwargs
  constructor
  · rintro ⟨e, he⟩
    rcases hcs : conflictScan kwargs (func.params.take numArgs) with _ | name
    · exfalso
      cases hw : hasWildcardKwargs func with
      | true =>
        rw [determine_kwargs_wild hcs hw] at he
        exact Except.noConfusion he
      | false =>
        rw [determine_kwargs_filter hcs hw] at he
        exact Except.noConfusion he
    · exact (conflictScan_some_iff _).1 ⟨name, hcs⟩
  · intro hcond
    rcases (conflictScan_some_iff _).2 hcond with ⟨name, hcs⟩
    exact ⟨_, determine_kwargs_conflict hcs⟩

/-- Witness for C4 on a concrete callable: `def f(x)` called with one
positional argument and kwargs `{x: 1}` errors, as the collision condition
holds. -/
theorem C4_collision_error_iff_witness :
    (∃ e, determine_kwargs ⟨[("x", .positional_or_keyword)]⟩ 1
        [("x", PyVal.int 1)] = .error e) ↔
      ∃ name kind,
        (name, kind) ∈ (PyFunc.mk [("x", .positional_or_keyword)]).params.take 1 ∧
        kind ≠ ParamKind.keyword_only ∧ kind ≠ ParamKind.var_keyword ∧
        kwHasKey [("x", PyVal.int 1)] name = true :=
  C4_collision_error_iff ⟨[("x", .positional_or_keyword)]⟩ 1 [("x", PyVal.int 1)]

theorem kwLookup_filtered (kwargs : List (String × PyVal)) :
    ∀ (params : List (String × ParamKind)) (name : String),
      kwLookup (params.filterMap (fun q => (kwLookup kwargs q.1).map (fun v => (q.1, v)))) name =
        if params.any (fun q => q.1 == name) then kwLookup kwargs name else none := by
  intro params
  induction params with
  | nil =>
    intro name
    simp [kwLookup]
  | cons q rest ih =>
    intro name
    obtain ⟨qn, qk⟩ := q
    rcases hlk : kwLookup kwargs qn with _ | w
    · rw [List.filterMap_cons_none (by simp [hlk])]
      rw [ih]
      cases hqn : qn == name with
      | false =>
        simp only [List.any_cons, hqn, Bool.false_or]
      | true =>
        have heq : qn = name := by simpa using hqn
        subst heq
        rw [hlk]
        rw [ite_self, ite_self]
    · rw [show List.filterMap (fun q => (kwLookup kwargs q.1).map (fun v => (q.1, v)))
            ((qn, qk) :: rest) =
          (qn, w) :: List.filterMap (fun q => (kwLookup kwargs q.1).map (fun v => (q.1, v))) rest
          from List.filterMap_cons_some (by simp [hlk])]
      cases hqn : qn == name with
      | true =>
        have heq : qn = name := by simpa using hqn
        subst heq
        simp [kwLookup, List.any_cons, hlk]
      | false =>
        simp only [kwLookup, hqn, Bool.false_eq_true, if_false, ih, List.any_cons, Bool.false_or]

theorem filteredKwargs_lookup (func : PyFunc) (kwargs : List (String × PyVal)) (name : String) :
    kwLookup (filteredKwargs func kwargs) name =
      if declaresParam func name then kwLookup kwargs name else none :=
  kwLookup_filtered kwargs func.params name

theorem filterMap_congr_mem {α β : Type} {f g : α → Option β} :
    ∀ {l : List α}, (∀ a ∈ l, f a = g a) → l.filterMap f = l.filterMap g := by
  intro l
  induction l with
  | nil => intro _; rfl
  | cons a rest ih =>
    intro h
    rcases hfa : f a with _ | b
    · rw [List.filterMap_cons_none hfa,
        List.filterMap_cons_none (by rw [← h a (List.mem_cons_self _ _)]; exact hfa)]
      exact ih (fun x hx => h x (List.mem_cons_of_mem _ hx))
    · rw [List.filterMap_cons_some hfa,
        List.filterMap_cons_some (by rw [← h a (List.mem_cons_self _ _)]; exact hfa)]
      rw [ih (fun x hx => h x (List.mem_cons_of_mem _ hx))]

theorem filteredKwargs_hasKey_sub {func : PyFunc} {kwargs : List (String × PyVal)}
    {name : String} (h : kwHasKey (filteredKwargs func kwargs) name = true) :
    kwHasKey kwargs name = true := by
  rcases kwHasKey_iff.1 h with ⟨v, hv⟩
  rcases List.mem_filterMap.1 hv with ⟨q, hq, hfq⟩
  rcases hql : kwLookup kwargs q.1 with _ | w
  · rw [hql] at hfq
    exact Option.noConfusion hfq
  · rw [hql] at hfq
    injection hfq with hfq
    have h1 : q.1 = name := congrArg Prod.fst hfq
    exact kwHasKey_of_lookup_some (h1 ▸ hql)

theorem conflictScan_none_mono {kwargs r : List (String × PyVal)}
    (hsub : ∀ name, kwHasKey r name = true → kwHasKey kwargs name = true) :
    ∀ l, conflictScan kwargs l = none → conflictScan r l = none := by
  intro l
  induction l with
  | nil => intro _; rfl
  | cons hd tl ih =>
    intro h
    obtain ⟨name, kind⟩ := hd
    simp only [conflictScan] at h ⊢
    by_cases h1 : kind = ParamKind.keyword_only
    · rw [if_pos h1] at h ⊢
      exact ih h
    · rw [if_neg h1] at h ⊢
      by_cases h2 : kind = ParamKind.var_keyword
      · rw [if_pos h2] at h ⊢
        exact ih h
      · rw [if_neg h2] at h ⊢
        cases hr : kwHasKey r name with
        | true =>
          rw [if_pos (hsub name hr)] at h
          exact Option.noConfusion h
        | false =>
          rw [if_neg Bool.false_ne_true]
          cases hk : kwHasKey kwargs name with
          | true =>
            rw [if_pos hk] at h
            exact Option.noConfusion h
          | false =>
            rw [if_neg (fun hc => Bool.noConfusion (hk.symm.trans hc))] at h
            exact ih h

/-- C10: `determine_kwargs` is idempotent: when it succeeds with result `r`,
running it again on `r` (same callable, same positional count) succeeds and
returns `r` unchanged. -/
theorem C10_determine_kwargs_idempotent :
    ∀ (func : PyFunc) (numArgs : Nat) (kwargs r : List (String × PyVal)),
      determine_kwargs func numArgs kwargs = .ok r →
      determine_kwargs func numArgs r = .ok r := by
  intro func numArgs kwargs r hok
  rcases hcs : conflictScan kwargs (func.params.take numArgs) with _ | name
  · cases hw : hasWildcardKwargs func with
    | true =>
      rw [determine_kwargs_wild hcs hw] at hok
      injection hok with hok
      subst hok
      exact determine_kwargs_wild hcs hw
    | false =>
      rw [determine_kwargs_filter hcs hw] at hok
      injection hok with hok
      subst hok
      have hsub : ∀ name, kwHasKey (filteredKwargs func kwargs) name = true →
          kwHasKey kwargs name = true := fun name h => filteredKwargs_hasKey_sub h
      have hcs' : conflictScan (filteredKwargs func kwargs) (func.params.take numArgs) = none :=
        conflictScan_none_mono hsub _ hcs
      rw [determine_kwargs_filter hcs' hw]
      congr 1
      unfold filteredKwargs
      apply filterMap_congr_mem
      intro q hq
      have hd : declaresParam func q.1 = true :=
        List.any_eq_true.2 ⟨q, hq, beq_self_eq_true q.1⟩
      rw [show kwLookup
            (func.params.filterMap (fun q => (kwLookup kwargs q.1).map (fun v => (q.1, v)))) q.1 =
          if declaresParam func q.1 then kwLookup kwargs q.1 else none from
        kwLookup_filtered kwargs func.params q.1]
      rw [if_pos hd]
  · rw [determine_kwargs_conflict hcs] at hok
    exact Except.noConfusion hok

/-- Witness for C10: filtering `{x: 1, y: 2}` for `def f(x)` gives `{x: 1}`,
and filtering `{x: 1}` again returns it unchanged. -/
theorem C10_determine_kwargs_idempotent_witness :
    determine_kwargs ⟨[("x", .positional_or_keyword)]⟩ 0 [("x", PyVal.int 1)] =
      .ok [("x", PyVal.int 1)] :=
  C10_determine_kwargs_idempotent ⟨[("x", .positional_or_keyword)]⟩ 0
    [("x", PyVal.int 1), ("y", PyVal.int 2)] [("x", PyVal.int 1)] (by rfl)

/-- Modelled from the spec: `airflow.sdk.definitions.asset.metadata.Metadata`
(not under src/): side-effect metadata carrying a target identifier (`asset`),
a payload map (`extra`), and an optional alias. -/
structure Metadata where
  asset : String
  extra : List (String × String)
  aliasName : Option String
deriving DecidableEq

/-- A value yielded by a generator callable: recognized side-effect metadata,
or anything else (identified by its type name, as logged in the warning). -/
inductive Yielded where
  | meta (m : Metadata)
  | unknown (typeName : String)
deriving DecidableEq

/-- Modelled from the spec: the event sink `outlet_events`
(`OutletEventAccessorsProtocol`, not under src/):
`outlet_events[asset].extra.update(payload)` is recorded as an
`(asset, payload)` update, and `outlet_events[alias].add(asset, extra=payload)`
as an `(alias, asset, payload)` record, both in application order. -/
structure Sink where
  updates : List (String × List (String × String))
  aliasRecords : List (String × String × List (String × String))
deriving DecidableEq

/-- The runner state: the event sink plus the logger's warning log. -/
structure RunState where
  sink : Sink
  warnings : List String
deriving DecidableEq

/-- Processing of one yielded value (lines 270-280): recognized metadata
updates the sink for its asset (and, when an alias is present, additionally
records the asset under that alias); any other value logs a warning and is
otherwise ignored. -/
def processYield (st : RunState) : Yielded → RunState
  | .meta m =>
    { st with
      sink :=
        { updates := st.sink.updates ++ [(m.asset, m.extra)],
          aliasRecords := st.sink.aliasRecords ++
            (match m.aliasName with
             | some al => [(al, m.asset, m.extra)]
             | none => []) } }
  | .unknown t =>
    { st with
      warnings := st.warnings ++ ["Ignoring unknown data of " ++ t ++ " received from task"] }

/-- A Python callable as dispatched on `inspect.isgeneratorfunction(func)`:
a plain single-shot function, or a generator function producing a sequence of
yielded values and a final return value. -/
inductive PyCallable (ι ρ : Type) where
  | plain (f : ι → ρ)
  | gen (f : ι → List Yielded × ρ)

/-- `ExecutionCallableRunner(func, outlet_events, logger=...).run(...)`
(lines 256-284): a non-generator callable is called directly; a generator is
drained with each yielded value processed by `processYield`, and the
generator's return value is returned. -/
def ExecutionCallableRunner.run {ι ρ : Type} (func : PyCallable ι ρ)
    (st : RunState) (input : ι) : RunState × ρ :=
  match func with
  | .plain f => (st, f input)
  | .gen f => ((f input).1.foldl processYield st, (f input).2)

/-- The `(asset, payload)` sink updates induced by a yield sequence, in order. -/
def metaUpdates (ys : List Yielded) : List (String × List (String × String)) :=
  ys.filterMap (fun y => match y with
    | .meta m => some (m.asset, m.extra)
    | .unknown _ => none)

/-- The `(alias, asset, payload)` records induced by a yield sequence, in order. -/
def aliasUpdates (ys : List Yielded) : List (String × String × List (String × String)) :=
  ys.filterMap (fun y => match y with
    | .meta m => m.aliasName.map (fun al => (al, m.asset, m.extra))
    | .unknown _ => none)

/-- The warnings logged for unrecognized yields, in order. -/
def unknownWarnings (ys : List Yielded) : List String :=
  ys.filterMap (fun y => match y with
    | .meta _ => none
    | .unknown t => some ("Ignoring unknown data of " ++ t ++ " received from task"))

theorem foldl_processYield (ys : List Yielded) :
    ∀ st : RunState,
      ys.foldl processYield st =
        { sink := { updates := st.sink.updates ++ metaUpdates ys,
                    aliasRecords := st.sink.aliasRecords ++ aliasUpdates ys },
          warnings := st.warnings ++ unknownWarnings ys } := by
  induction ys with
  | nil =>
    intro st
    simp [metaUpdates, aliasUpdates, unknownWarnings]
  | cons y ytl ih =>
    intro st
    rw [List.foldl_cons, ih]
    cases y with
    | meta m =>
      obtain ⟨asset, extra, al⟩ := m
      cases al with
      | none => simp [processYield, metaUpdates, aliasUpdates, unknownWarnings]
      | some a => simp [processYield, metaUpdates, aliasUpdates, unknownWarnings]
    | unknown t =>
      simp [processYield, metaUpdates, aliasUpdates, unknownWarnings]

theorem metaUpdates_nil_of_unknown {ys : List Yielded}
    (h : ∀ y ∈ ys, ∃ t, y = .unknown t) : metaUpdates ys = [] := by
  induction ys with
  | nil => rfl
  | cons y tl ih =>
    rcases h y (List.mem_cons_self _ _) with ⟨t, rfl⟩
    rw [show metaUpdates (Yielded.unknown t :: tl) = metaUpdates tl from
      List.filterMap_cons_none rfl]
    exact ih (fun x hx => h x (List.mem_cons_of_mem _ hx))

theorem aliasUpdates_nil_of_unknown {ys : List Yielded}
    (h : ∀ y ∈ ys, ∃ t, y = .unknown t) : aliasUpdates ys = [] := by
  induction ys with
  | nil => rfl
  | cons y tl ih =>
    rcases h y (List.mem_cons_self _ _) with ⟨t, rfl⟩
    rw [show aliasUpdates (Yielded.unknown t :: tl) = aliasUpdates tl from
      List.filterMap_cons_none rfl]
    exact ih (fun x hx => h x (List.mem_cons_of_mem _ hx))

/-- C5: wrapping a single-shot (non-generator) callable in the execution
runner does not change its result: `run` returns exactly the callable's value
and leaves the event sink and the log untouched. -/
theorem C5_plain_callable_passthrough :
    ∀ (ι ρ : Type) (f : ι → ρ) (st : RunState) (input : ι),
      ExecutionCallableRunner.run (.plain f) st input = (st, f input) := by
  intro ι ρ f st input
  rfl

/-- C6: a generator callable is drained to completion: `run` returns the
generator's final return value, and each recognized metadata yield updates the
event sink for its target identifier with its payload map — with an additional
record under the alias when one is present — in yield order. -/
theorem C6_generator_drained :
    ∀ (ι ρ : Type) (f : ι → List Yielded × ρ) (st : RunState) (input : ι),
      ExecutionCallableRunner.run (.gen f) st input =
        ({ sink := { updates := st.sink.updates ++ metaUpdates (f input).1,
                     aliasRecords := st.sink.aliasRecords ++ aliasUpdates (f input).1 },
           warnings := st.warnings ++ unknownWarnings (f input).1 }, (f input).2) := by
  intro ι ρ f st input
  show ((f input).1.foldl processYield st, (f input).2) = _
  rw [foldl_processYield]

/-- C7: unrecognized yields never fail the run: when every yielded value is
unrecognized, `run` logs one warning per yielded value, leaves the event sink
unchanged, keeps draining, and still returns the generator's return value. -/
theorem C7_unknown_yields_ignored :
    ∀ (ι ρ : Type) (f : ι → List Yielded × ρ) (st : RunState) (input : ι),
      (∀ y ∈ (f input).1, ∃ t, y = .unknown t) →
      ExecutionCallableRunner.run (.gen f) st input =
        ({ sink := st.sink, warnings := st.warnings ++ unknownWarnings (f input).1 },
         (f input).2) := by
  intro ι ρ f st input hall
  show ((f input).1.foldl processYield st, (f input).2) = _
  rw [foldl_processYield, metaUpdates_nil_of_unknown hall, aliasUpdates_nil_of_unknown hall,
    List.append_nil, List.append_nil]

/-- Witness for C7 on a concrete generator yielding one unrecognized value. -/
theorem C7_unknown_yields_ignored_witness :
    ExecutionCallableRunner.run
        (.gen fun _ : Unit => ([Yielded.unknown "str"], (7 : Nat)))
        ⟨⟨[], []⟩, []⟩ () =
      (⟨⟨[], []⟩, ["Ignoring unknown data of str received from task"]⟩, 7) :=
  C7_unknown_yields_ignored Unit Nat (fun _ => ([Yielded.unknown "str"], 7)) ⟨⟨[], []⟩, []⟩ ()
    (by
      intro y hy
      rcases List.mem_singleton.1 hy with rfl
      exact ⟨"str", rfl⟩)
